import Mathlib

/-!
Shallow embedding of the sync core of the efmrl3 CLI (Go): the
reconciliation planner (`computeSyncPlan`), the quota guard
(`validateQuota`), the local tree scanner (`scanLocalFiles` /
`detectContentType`), the plan executor (`executeSyncPlan`) and the
authenticated transport's 401/refresh logic (`APIClient.doRequest`,
`uploadFile`, `refreshTokenIfNeeded`), with the theorems that settle the
claims about them.

Conventions of the embedding:
- Go `int64` sizes are modelled as `Int` (the spec stipulates 64-bit sums
  without overflow for realistic site sizes, and no claim depends on
  wrap-around).
- A Go `map[string]RemoteFile` keyed by each entry's own path is modelled
  as a `List RemoteFile` holding at most one entry per path; insertion
  (`mapInsert`) removes any previous entry for the key, mirroring
  overwrite, and lookup takes the first (hence only) match.
- Go's `range` over a map yields the entries in an unspecified order; it
  is modelled by a function parameter `rangeOrder` that the runtime may
  choose, constrained (`GoMapRange`) to emit exactly the map's entries in
  some order.
- HTTP responses and provider refresh outcomes are modelled as oracle
  values supplied to each call (`RequestEnv`, the executor's `resp`).
-/

namespace Cli3

/-- Structure LocalFile from the source: a scanned local file. -/
structure LocalFile where
  path : String
  absPath : String
  etag : String
  size : Int
  contentType : String
deriving DecidableEq, Repr

/-- Structure RemoteFile from the source: one entry of the remote listing. -/
structure RemoteFile where
  path : String
  etag : String
  size : Int
  uploaded : String
deriving DecidableEq, Repr

/-- Structure SyncPlan from the source: the planner's three collections. -/
structure SyncPlan where
  toUpload : List LocalFile
  toDelete : List RemoteFile
  unchanged : List String
deriving DecidableEq, Repr

/-- Structure QuotaInfo from the source. -/
structure QuotaInfo where
  currentSpace : Int
  maxSpace : Int
  availableSpace : Int
deriving DecidableEq, Repr

/-- Lookup in the remote map, as in `remoteMap[path]`. -/
def mapLookup (m : List RemoteFile) (p : String) : Option RemoteFile :=
  m.find? (fun rf => rf.path == p)

/-- Deletion from the remote map, as in `delete(remoteMap, path)`. -/
def mapErase (m : List RemoteFile) (p : String) : List RemoteFile :=
  m.filter (fun rf => rf.path != p)

/-- Insertion into the remote map, as in `remoteMap[rf.Path] = rf`: any
older entry under the same path is overwritten. -/
def mapInsert (m : List RemoteFile) (rf : RemoteFile) : List RemoteFile :=
  mapErase m rf.path ++ [rf]

/-- The loop `for _, rf := range remote { remoteMap[rf.Path] = rf }` of
computeSyncPlan. -/
def buildRemoteMap (remote : List RemoteFile) : List RemoteFile :=
  remote.foldl mapInsert []

/-- The planner's local loop: for each local file, decide upload versus
unchanged against the remote map, and remove the processed path from the
map. Returns (toUpload, unchanged, remaining map). -/
def planLocals (force : Bool) : List LocalFile → List RemoteFile →
    List LocalFile × List String × List RemoteFile
  | [], m => ([], [], m)
  | lf :: rest, m =>
    let upload :=
      match mapLookup m lf.path with
      | none => true
      | some rf => force || lf.etag != rf.etag
    let r := planLocals force rest (mapErase m lf.path)
    if upload then (lf :: r.1, r.2.1, r.2.2) else (r.1, lf.path :: r.2.1, r.2.2)

/-- Function computeSyncPlan from the source. The parameter `rangeOrder`
stands for the Go runtime's iteration order over the leftover map in
`for _, rf := range remoteMap`; a run of the program fixes some such
order. -/
def computeSyncPlan (loc : List LocalFile) (remote : List RemoteFile)
    (force deleteRemote : Bool)
    (rangeOrder : List RemoteFile → List RemoteFile) : SyncPlan :=
  let r := planLocals force loc (buildRemoteMap remote)
  { toUpload := r.1
    toDelete := if deleteRemote then rangeOrder r.2.2 else []
    unchanged := r.2.1 }

/-- A function is a possible Go map range order when it emits exactly the
entries of the map it is given, in some order. -/
def GoMapRange (f : List RemoteFile → List RemoteFile) : Prop :=
  ∀ m, List.Perm (f m) m

/-- Function calculateTotalSize from the source. -/
def calculateTotalSize (files : List LocalFile) : Int :=
  files.foldl (fun total f => total + f.size) 0

/-- The quota-violation error of validateQuota: the Go code produces
`fmt.Errorf("local directory size (%s) exceeds efmrl quota (%s)", ...)`,
whose message renders exactly these two byte counts. -/
inductive QuotaError where
  | exceeds (localTotal maxSpace : Int)
deriving DecidableEq, Repr

/-- Function validateQuota from the source; `none` means the check passed. -/
def validateQuota (localFiles : List LocalFile) (quota : QuotaInfo) :
    Option QuotaError :=
  let totalLocalSize := calculateTotalSize localFiles
  if totalLocalSize > quota.maxSpace then
    some (QuotaError.exceeds totalLocalSize quota.maxSpace)
  else
    none

/-- A directory tree on disk: regular files carry their byte content
(modelled as a string). -/
inductive FSNode where
  | file (name content : String)
  | dir (name : String) (children : List FSNode)
deriving Repr

/-- Helper of fileExt: scan the path's characters from the end; stop with
no extension at a path separator, return from the final dot. The
accumulator holds the characters already passed, restored to source
order. -/
def extScan : List Char → List Char → List Char
  | [], _ => []
  | c :: rest, acc =>
    if c = '/' then []
    else if c = '.' then '.' :: acc
    else extScan rest (c :: acc)

/-- Go's filepath.Ext: the suffix beginning at the final dot in the final
slash-separated element of the path; empty if there is no dot. -/
def fileExt (path : String) : String :=
  String.mk (extScan path.data.reverse [])

/-- Function detectContentType from the source. The system MIME table of
mime.TypeByExtension is environment-supplied; it is modelled as the
parameter `mimeTable`, which returns "" for an unrecognized extension. -/
def detectContentType (mimeTable : String → String) (path : String) : String :=
  let ext := fileExt path
  let mimeType := mimeTable ext
  if mimeType != "" then mimeType
  else "application/octet-stream"

/-- The LocalFile record the scanner builds for a kept file, from its
root-relative path components and content. The parameter `md5hex` stands
for computeFileETag's digest of the content. -/
def scanEntry (md5hex mimeTable : String → String) (rootDir : String)
    (e : List String × String) : LocalFile :=
  let relPath := String.intercalate "/" e.1
  { path := "/" ++ relPath
    absPath := rootDir ++ "/" ++ relPath
    etag := md5hex e.2
    size := (e.2.utf8ByteSize : Int)
    contentType := detectContentType mimeTable (rootDir ++ "/" ++ relPath) }

/-- The walk callback of scanLocalFiles applied to one node, carrying the
path components from the root down to the node's parent. Directories are
descended; a file is kept unless some component of its root-relative path
starts with the hidden marker '.'. -/
def scanNode (md5hex mimeTable : String → String) (rootDir : String) :
    FSNode → List String → List LocalFile
  | .file name content, comps =>
    let parts := comps ++ [name]
    if parts.any (fun part => part.startsWith ".") then []
    else [scanEntry md5hex mimeTable rootDir (parts, content)]
  | .dir name children, comps =>
    children.attach.flatMap
      (fun c => scanNode md5hex mimeTable rootDir c.1 (comps ++ [name]))
decreasing_by
  have := List.sizeOf_lt_of_mem c.2
  simp only [FSNode.dir.sizeOf_spec]
  omega

/-- Function scanLocalFiles from the source, on the model tree: the walk
of the root directory, whose immediate children are `roots`. The root
directory entry itself is skipped as a directory by the callback. -/
def scanLocalFiles (md5hex mimeTable : String → String) (rootDir : String)
    (roots : List FSNode) : List LocalFile :=
  roots.flatMap (fun c => scanNode md5hex mimeTable rootDir c [])

/-- Specification-side listing of a tree's regular files: each with its
path components relative to the node's parent, and its content. No
exclusion rule is applied. -/
def nodeFiles : FSNode → List (List String × String)
  | .file name content => [([name], content)]
  | .dir name children =>
    children.attach.flatMap
      (fun c => (nodeFiles c.1).map (fun e => (name :: e.1, e.2)))
decreasing_by
  have := List.sizeOf_lt_of_mem c.2
  simp only [FSNode.dir.sizeOf_spec]
  omega

/-- Specification-side listing of all regular files under the root. -/
def treeFiles (roots : List FSNode) : List (List String × String) :=
  roots.flatMap nodeFiles

/-- An operation of the plan executor. -/
inductive Op where
  | del (path : String)
  | up (file : LocalFile)
deriving DecidableEq, Repr

/-- The outcome of one deleteFile or uploadFile call, as seen by the
executor: success (err == nil), a non-success HTTP status, or a transport
error. -/
inductive OpOutcome where
  | success
  | httpError (status : Nat) (body : String)
  | transportError (msg : String)
deriving DecidableEq, Repr

/-- Whether an outcome is a success. -/
def OpOutcome.isSuccess : OpOutcome → Bool
  | .success => true
  | _ => false

/-- One executor loop (delete loop or upload loop): perform each
operation in order; on the first failure return it immediately. Returns
the operations completed successfully, and the failing operation with its
outcome, if any. -/
def runOps (resp : Op → OpOutcome) : List Op → List Op × Option (Op × OpOutcome)
  | [] => ([], none)
  | op :: rest =>
    match resp op with
    | .success => let r := runOps resp rest; (op :: r.1, r.2)
    | o => ([], some (op, o))

/-- Function executeSyncPlan from the source: run all deletions first,
returning at the first failure; then run all uploads, returning at the
first failure. The oracle `resp` gives each remote operation's outcome. -/
def executeSyncPlan (resp : Op → OpOutcome) (plan : SyncPlan) :
    List Op × Option (Op × OpOutcome) :=
  let d := runOps resp (plan.toDelete.map (fun rf => Op.del rf.path))
  match d.2 with
  | some e => (d.1, some e)
  | none =>
    let u := runOps resp (plan.toUpload.map Op.up)
    (d.1 ++ u.1, u.2)

/-- The transport state of structure APIClient that the claims concern:
the instance-scoped refreshFailed flag. BaseURL and host do not vary
during a run and are omitted. -/
structure APIClient where
  refreshFailed : Bool
deriving DecidableEq, Repr

/-- The outcome of sending one HTTP request: a status code, or a
network-level error. -/
inductive HttpOutcome where
  | status (code : Nat)
  | netError (msg : String)
deriving DecidableEq, Repr

/-- The environment of one logical request: the outcome the first attempt
would get, whether refreshTokenIfNeeded would succeed, and the outcome a
retried attempt would get. Credential loading is assumed to succeed (its
failure paths touch neither the flag nor the refresh logic). -/
structure RequestEnv where
  first : HttpOutcome
  refreshOk : Bool
  retry : HttpOutcome
deriving DecidableEq, Repr

/-- The errors the modelled request paths can return. -/
inductive ReqError where
  | requestFailed (msg : String)
  | sessionExpired
  | refreshCredsFailed
  | serverStatus (code : Nat)
deriving DecidableEq, Repr

/-- What one modelled call returns: the client state afterwards, whether
a token refresh was attempted during the call, and the result. -/
structure ReqOutput where
  client : APIClient
  refreshAttempted : Bool
  result : Except ReqError Nat
deriving Repr

/-- Method APIClient.doRequest from the source, restricted to its
response/refresh logic: on 401, fail with "session expired" at once if a
refresh already failed on this instance; otherwise attempt exactly one
refresh, setting the flag and failing on refresh failure, and retrying
the request once on refresh success. The retried response is returned
as-is. -/
def doRequest (c : APIClient) (env : RequestEnv) : ReqOutput :=
  match env.first with
  | .netError m => ⟨c, false, .error (.requestFailed m)⟩
  | .status code =>
    if code ≠ 401 then ⟨c, false, .ok code⟩
    else if c.refreshFailed then ⟨c, false, .error .sessionExpired⟩
    else if !env.refreshOk then
      ⟨{ refreshFailed := true }, true, .error .sessionExpired⟩
    else
      match env.retry with
      | .netError m => ⟨c, true, .error (.requestFailed m)⟩
      | .status code2 => ⟨c, true, .ok code2⟩

/-- Function uploadFile from the source, restricted to its
response/refresh logic: on 401 it calls refreshTokenIfNeeded without
consulting the refreshFailed flag, returns the wrapped refresh error on
refresh failure without setting the flag, and retries once on success;
any final status other than 200 is an error. -/
def uploadFile (c : APIClient) (env : RequestEnv) : ReqOutput :=
  match env.first with
  | .netError m => ⟨c, false, .error (.requestFailed m)⟩
  | .status code =>
    if code = 401 then
      if !env.refreshOk then ⟨c, true, .error .refreshCredsFailed⟩
      else
        match env.retry with
        | .netError m => ⟨c, true, .error (.requestFailed m)⟩
        | .status code2 =>
          if code2 ≠ 200 then ⟨c, true, .error (.serverStatus code2)⟩
          else ⟨c, true, .ok code2⟩
    else if code ≠ 200 then ⟨c, false, .error (.serverStatus code)⟩
    else ⟨c, false, .ok code⟩

/-- A sequence of requests issued through one transport instance, each
through doRequest, threading the client state. -/
def runRequests (c : APIClient) : List RequestEnv → List ReqOutput
  | [] => []
  | e :: es => let o := doRequest c e; o :: runRequests o.client es

/-- Structure HostCredentials from the source. -/
structure HostCredentials where
  accessToken : String
  refreshToken : String
  provider : String
deriving DecidableEq, Repr

/-- The fields of GoogleTokenResponse that refreshTokenIfNeeded reads; the
refresh token may be absent ("") on refresh. -/
structure GoogleTokenResponse where
  idToken : String
  refreshToken : String
deriving DecidableEq, Repr

/-- The fields of the WorkOS TokenResponse that refreshTokenIfNeeded
reads. -/
structure TokenResponse where
  accessToken : String
  refreshToken : String
deriving DecidableEq, Repr

/-- The credential that refreshTokenIfNeeded writes back to the store on
a successful refresh: dispatch on the stored provider tag ("google"
versus the default branch for "workos" or legacy entries);
`googleResp`/`workosResp` are the responses the respective provider call
would return. -/
def refreshTokenNewCreds (creds : HostCredentials)
    (googleResp : GoogleTokenResponse) (workosResp : TokenResponse) :
    HostCredentials :=
  if creds.provider = "google" then
    let newRefreshToken :=
      if googleResp.refreshToken = "" then creds.refreshToken
      else googleResp.refreshToken
    { accessToken := googleResp.idToken
      refreshToken := newRefreshToken
      provider := "google" }
  else
    { accessToken := workosResp.accessToken
      refreshToken := workosResp.refreshToken
      provider := "workos" }

/-- The flags of struct SyncCmd from the source. -/
structure SyncCmd where
  dryRun : Bool
  force : Bool
  delete : Bool
deriving DecidableEq, Repr

/-- The value of the Delete flag after command-line parsing: the kong tag
on SyncCmd.Delete is `default:"true" negatable:""`, so the flag is true
unless the invocation explicitly sets it (and only an explicit negation
makes it false). -/
def SyncCmd.fromFlags (dryRun force : Bool) (deleteArg : Option Bool) : SyncCmd :=
  { dryRun := dryRun, force := force, delete := deleteArg.getD true }

/-- C6: the quota guard fails if and only if the sum of local sizes is
strictly greater than maxSpace; a sum exactly equal to maxSpace succeeds;
an empty file list succeeds for maxSpace ≥ 0; and on failure the error
carries both the local total and the quota limit (the two values the
message renders). -/
theorem c6_quota_guard (files : List LocalFile) (quota : QuotaInfo) :
    (validateQuota files quota ≠ none ↔
      calculateTotalSize files > quota.maxSpace) ∧
    (calculateTotalSize files > quota.maxSpace →
      validateQuota files quota =
        some (QuotaError.exceeds (calculateTotalSize files) quota.maxSpace)) ∧
    (calculateTotalSize files = quota.maxSpace →
      validateQuota files quota = none) ∧
    (files = [] → 0 ≤ quota.maxSpace → validateQuota files quota = none) := by
  refine ⟨?_, ?_, ?_, ?_⟩
  · by_cases h : calculateTotalSize files > quota.maxSpace <;>
      simp [validateQuota, h]
  · intro h; simp [validateQuota, h]
  · intro h; simp [validateQuota, h]
  · intro h h0; subst h
    have h1 : calculateTotalSize [] = 0 := rfl
    simp [validateQuota, h1, not_lt.mpr h0]

/-- C10: validateQuota depends only on the sum of local sizes and on
maxSpace — quotas with equal maxSpace give equal results whatever their
currentSpace and availableSpace — and a local total at most maxSpace
passes even when it exceeds the reported availableSpace. -/
theorem c10_quota_ignores_available (files : List LocalFile)
    (q1 q2 : QuotaInfo) :
    (q1.maxSpace = q2.maxSpace →
      validateQuota files q1 = validateQuota files q2) ∧
    (calculateTotalSize files > q1.availableSpace →
      calculateTotalSize files ≤ q1.maxSpace →
      validateQuota files q1 = none) := by
  constructor
  · intro h; simp [validateQuota, h]
  · intro _ h2; simp [validateQuota, not_lt.mpr h2]

/-- C7 counterexample: a stored credential with provider tag "workos"
whose refresh response omits the refresh token ("" in the response) has
its stored refresh token replaced by the empty value, not kept. -/
theorem c7_counterexample :
    refreshTokenNewCreds ⟨"a", "r", "workos"⟩ ⟨"", ""⟩ ⟨"a2", ""⟩ =
      ⟨"a2", "", "workos"⟩ ∧
    (refreshTokenNewCreds ⟨"a", "r", "workos"⟩ ⟨"", ""⟩ ⟨"a2", ""⟩).refreshToken
      ≠ "r" := by
  decide

/-- C7 amended: only the google branch keeps the previous refresh token
when the provider response omits one; the default (workos/legacy) branch
stores the response's refresh-token field verbatim, an empty value
included. -/
theorem c7_amended_refresh_token (creds : HostCredentials)
    (g : GoogleTokenResponse) (w : TokenResponse) :
    (creds.provider = "google" → g.refreshToken = "" →
      (refreshTokenNewCreds creds g w).refreshToken = creds.refreshToken) ∧
    (creds.provider = "google" → g.refreshToken ≠ "" →
      (refreshTokenNewCreds creds g w).refreshToken = g.refreshToken) ∧
    (creds.provider ≠ "google" →
      (refreshTokenNewCreds creds g w).refreshToken = w.refreshToken) := by
  refine ⟨?_, ?_, ?_⟩ <;> intro h1 <;>
    simp [refreshTokenNewCreds, h1]
  · intro h2; simp [h2]
  · intro h2; simp [h2]

/-- C3 counterexample: on a transport instance whose refresh has already
failed (flag set by a previous doRequest), a 401 on a file upload still
attempts a refresh and does not fail with the "session expired" error;
and a refresh failure during an upload leaves the flag unset. -/
theorem c3_counterexample :
    (doRequest ⟨false⟩ ⟨.status 401, false, .status 200⟩).client = ⟨true⟩ ∧
    (uploadFile ⟨true⟩ ⟨.status 401, false, .status 200⟩).refreshAttempted
      = true ∧
    (uploadFile ⟨true⟩ ⟨.status 401, false, .status 200⟩).result =
      .error .refreshCredsFailed ∧
    (uploadFile ⟨false⟩ ⟨.status 401, false, .status 200⟩).client = ⟨false⟩ := by
  refine ⟨rfl, rfl, rfl, rfl⟩

/-- C3 amended: the claimed behaviour holds for every request issued
through doRequest — a 401 with the flag set fails immediately with
"session expired" and no refresh attempt, a refresh failure sets the
instance-scoped flag, the flag is never cleared, and once it is set a
whole sequence of requests through the instance attempts no refresh and
answers every 401 with "session expired" — but uploadFile's 401 path
attempts a refresh regardless of the flag and leaves the flag
unchanged. -/
theorem c3_amended_transport_flag (c : APIClient) (env : RequestEnv)
    (envs : List RequestEnv) :
    (c.refreshFailed = true → env.first = .status 401 →
      doRequest c env = ⟨c, false, .error .sessionExpired⟩) ∧
    (c.refreshFailed = false → env.first = .status 401 → env.refreshOk = false →
      doRequest c env = ⟨⟨true⟩, true, .error .sessionExpired⟩) ∧
    (c.refreshFailed = true → (doRequest c env).client.refreshFailed = true) ∧
    (c.refreshFailed = true →
      runRequests c envs = envs.map (fun e =>
        match e.first with
        | .netError m => ⟨c, false, .error (.requestFailed m)⟩
        | .status code =>
          if code ≠ 401 then ⟨c, false, .ok code⟩
          else ⟨c, false, .error .sessionExpired⟩)) ∧
    (env.first = .status 401 →
      (uploadFile c env).refreshAttempted = true ∧ (uploadFile c env).client = c)
    := by
  obtain ⟨flag⟩ := c
  refine ⟨?_, ?_, ?_, ?_, ?_⟩
  · intro h1 h2; subst h1; simp [doRequest, h2]
  · intro h1 h2 h3; subst h1; simp [doRequest, h2, h3]
  · intro h1; subst h1
    cases henv : env.first with
    | netError m => simp [doRequest, henv]
    | status code =>
      by_cases hc : code = 401 <;> simp [doRequest, henv, hc]
  · intro h1; subst h1
    induction envs with
    | nil => simp [runRequests]
    | cons e es ih =>
      cases henv : e.first with
      | netError m => simp [runRequests, doRequest, henv, ih]
      | status code =>
        by_cases hc : code = 401 <;>
          simp [runRequests, doRequest, henv, hc, ih]
  · intro h1
    cases env with
    | mk first refreshOk retry =>
      simp only at h1
      subst h1
      cases hok : refreshOk with
      | false => simp [uploadFile]
      | true =>
        cases retry with
        | netError m => simp [uploadFile]
        | status code2 =>
          by_cases hc : code2 = 200 <;> simp [uploadFile, hc]

theorem runOps_none_iff (resp : Op → OpOutcome) (ops : List Op) :
    (runOps resp ops).2 = none ↔ ∀ op ∈ ops, resp op = .success := by
  induction ops with
  | nil => simp [runOps]
  | cons op rest ih =>
    cases h : resp op with
    | success => simp [runOps, h, ih]
    | httpError s b => simp [runOps, h]
    | transportError m => simp [runOps, h]

theorem runOps_fst_of_none (resp : Op → OpOutcome) (ops : List Op) :
    (runOps resp ops).2 = none → (runOps resp ops).1 = ops := by
  induction ops with
  | nil => simp [runOps]
  | cons op rest ih =>
    cases h : resp op with
    | success =>
      intro h2
      simp only [runOps, h] at h2 ⊢
      simp [ih h2]
    | httpError s b => intro h2; simp [runOps, h] at h2
    | transportError m => intro h2; simp [runOps, h] at h2

theorem runOps_some_spec (resp : Op → OpOutcome) (ops : List Op)
    (op : Op) (o : OpOutcome) :
    (runOps resp ops).2 = some (op, o) →
      resp op = o ∧ o.isSuccess = false ∧
      (∃ tail, ops = (runOps resp ops).1 ++ op :: tail) ∧
      (∀ p ∈ (runOps resp ops).1, resp p = .success) := by
  induction ops with
  | nil => simp [runOps]
  | cons q rest ih =>
    cases h : resp q with
    | success =>
      intro h2
      simp only [runOps, h] at h2 ⊢
      obtain ⟨h3, h4, ⟨tail, htail⟩, h5⟩ := ih h2
      refine ⟨h3, h4, ⟨tail, by rw [List.cons_append, ← htail]⟩, ?_⟩
      intro p hp
      rcases List.mem_cons.mp hp with rfl | hp
      · exact h
      · exact h5 p hp
    | httpError s b =>
      intro h2
      simp only [runOps, h, Option.some.injEq, Prod.mk.injEq] at h2
      obtain ⟨rfl, rfl⟩ := h2
      have h1 : (runOps resp (q :: rest)).1 = [] := by simp [runOps, h]
      exact ⟨h, rfl, ⟨rest, by rw [h1, List.nil_append]⟩, by rw [h1]; simp⟩
    | transportError m =>
      intro h2
      simp only [runOps, h, Option.some.injEq, Prod.mk.injEq] at h2
      obtain ⟨rfl, rfl⟩ := h2
      have h1 : (runOps resp (q :: rest)).1 = [] := by simp [runOps, h]
      exact ⟨h, rfl, ⟨rest, by rw [h1, List.nil_append]⟩, by rw [h1]; simp⟩

/-- C4: the executor performs every deletion before any upload — its
trace of completed operations is a prefix of the deletions followed by a
prefix of the uploads, with uploads only after every deletion completed;
on success everything ran in order; on failure the returned error is the
first failing operation's outcome (transport error or non-success HTTP
status), the operations before it completed and remain applied, and no
later operation is attempted. -/
theorem c4_executor_order_and_failure (resp : Op → OpOutcome)
    (plan : SyncPlan) :
    (∃ ds us,
      (executeSyncPlan resp plan).1 = ds ++ us ∧
      (∃ d2, plan.toDelete.map (fun rf => Op.del rf.path) = ds ++ d2) ∧
      (∃ u2, plan.toUpload.map Op.up = us ++ u2) ∧
      (us ≠ [] → ds = plan.toDelete.map (fun rf => Op.del rf.path))) ∧
    ((executeSyncPlan resp plan).2 = none →
      (executeSyncPlan resp plan).1 =
        plan.toDelete.map (fun rf => Op.del rf.path) ++
          plan.toUpload.map Op.up ∧
      ∀ op ∈ (executeSyncPlan resp plan).1, resp op = .success) ∧
    (∀ op o, (executeSyncPlan resp plan).2 = some (op, o) →
      resp op = o ∧ o.isSuccess = false ∧
      (∃ tail,
        plan.toDelete.map (fun rf => Op.del rf.path) ++
            plan.toUpload.map Op.up =
          (executeSyncPlan resp plan).1 ++ op :: tail) ∧
      ∀ p ∈ (executeSyncPlan resp plan).1, resp p = .success) := by
  cases hd : (runOps resp (plan.toDelete.map (fun rf => Op.del rf.path))).2 with
  | some e =>
    obtain ⟨op0, o0⟩ := e
    have hspec := runOps_some_spec resp
      (plan.toDelete.map (fun rf => Op.del rf.path)) op0 o0 hd
    obtain ⟨h3, h4, ⟨tail, htail⟩, h5⟩ := hspec
    have hexec : executeSyncPlan resp plan =
        ((runOps resp (plan.toDelete.map (fun rf => Op.del rf.path))).1,
          some (op0, o0)) := by
      simp only [executeSyncPlan, hd]
    refine ⟨?_, ?_, ?_⟩
    · exact ⟨(runOps resp (plan.toDelete.map (fun rf => Op.del rf.path))).1, [],
        by simp [hexec], ⟨op0 :: tail, htail⟩, ⟨plan.toUpload.map Op.up, rfl⟩,
        by simp⟩
    · intro hn; rw [hexec] at hn; simp at hn
    · intro op o ho
      rw [hexec] at ho
      simp only [Option.some.injEq, Prod.mk.injEq] at ho
      obtain ⟨rfl, rfl⟩ := ho
      refine ⟨h3, h4, ⟨tail ++ plan.toUpload.map Op.up, ?_⟩, ?_⟩
      · conv_lhs => rw [htail]
        rw [hexec]
        simp [List.append_assoc]
      · rw [hexec]; exact h5
  | none =>
    have hdels := runOps_fst_of_none resp
      (plan.toDelete.map (fun rf => Op.del rf.path)) hd
    have hdsucc := (runOps_none_iff resp
      (plan.toDelete.map (fun rf => Op.del rf.path))).mp hd
    cases hu : (runOps resp (plan.toUpload.map Op.up)).2 with
    | none =>
      have hups := runOps_fst_of_none resp (plan.toUpload.map Op.up) hu
      have husucc := (runOps_none_iff resp (plan.toUpload.map Op.up)).mp hu
      have hexec : executeSyncPlan resp plan =
          ((runOps resp (plan.toDelete.map (fun rf => Op.del rf.path))).1 ++
            (runOps resp (plan.toUpload.map Op.up)).1, none) := by
        simp only [executeSyncPlan, hd, hu]
      refine ⟨?_, ?_, ?_⟩
      · exact ⟨plan.toDelete.map (fun rf => Op.del rf.path),
          plan.toUpload.map Op.up, by simp [hexec, hdels, hups],
          ⟨[], by simp⟩, ⟨[], by simp⟩, fun _ => rfl⟩
      · intro _
        rw [hexec]
        refine ⟨by simp [hdels, hups], ?_⟩
        intro op hop
        simp only [hdels, hups] at hop
        rcases List.mem_append.mp hop with h | h
        · exact hdsucc op h
        · exact husucc op h
      · intro op o ho; rw [hexec] at ho; simp at ho
    | some e =>
      obtain ⟨op0, o0⟩ := e
      have hspec := runOps_some_spec resp (plan.toUpload.map Op.up) op0 o0 hu
      obtain ⟨h3, h4, ⟨tail, htail⟩, h5⟩ := hspec
      have hexec : executeSyncPlan resp plan =
          ((runOps resp (plan.toDelete.map (fun rf => Op.del rf.path))).1 ++
            (runOps resp (plan.toUpload.map Op.up)).1, some (op0, o0)) := by
        simp only [executeSyncPlan, hd, hu]
      refine ⟨?_, ?_, ?_⟩
      · exact ⟨plan.toDelete.map (fun rf => Op.del rf.path),
          (runOps resp (plan.toUpload.map Op.up)).1,
          by simp [hexec, hdels], ⟨[], by simp⟩, ⟨op0 :: tail, htail⟩,
          fun _ => rfl⟩
      · intro hn; rw [hexec] at hn; simp at hn
      · intro op o ho
        rw [hexec] at ho
        simp only [Option.some.injEq, Prod.mk.injEq] at ho
        obtain ⟨rfl, rfl⟩ := ho
        refine ⟨h3, h4, ⟨tail, ?_⟩, ?_⟩
        · conv_lhs => rw [htail]
          rw [hexec]
          simp [hdels, List.append_assoc]
        · intro p hp
          rw [hexec] at hp
          rcases List.mem_append.mp hp with h | h
          · exact hdsucc p (hdels ▸ h)
          · exact h5 p h

theorem planLocals_cons (force : Bool) (lf : LocalFile) (rest : List LocalFile)
    (m : List RemoteFile) :
    planLocals force (lf :: rest) m =
      if (match mapLookup m lf.path with
          | none => true
          | some rf => force || lf.etag != rf.etag) then
        (lf :: (planLocals force rest (mapErase m lf.path)).1,
         (planLocals force rest (mapErase m lf.path)).2.1,
         (planLocals force rest (mapErase m lf.path)).2.2)
      else
        ((planLocals force rest (mapErase m lf.path)).1,
         lf.path :: (planLocals force rest (mapErase m lf.path)).2.1,
         (planLocals force rest (mapErase m lf.path)).2.2) := by
  simp only [planLocals]

theorem mapLookup_cons_pos {rf : RemoteFile} {p : String}
    (m : List RemoteFile) (h : (rf.path == p) = true) :
    mapLookup (rf :: m) p = some rf := by
  simp [mapLookup, List.find?, h]

theorem mapLookup_cons_neg {rf : RemoteFile} {p : String}
    (m : List RemoteFile) (h : (rf.path == p) = false) :
    mapLookup (rf :: m) p = mapLookup m p := by
  simp [mapLookup, List.find?, h]

theorem mapErase_cons_kept {rf : RemoteFile} {q : String}
    (m : List RemoteFile) (h : rf.path ≠ q) :
    mapErase (rf :: m) q = rf :: mapErase m q := by
  simp [mapErase, List.filter_cons, h]

theorem mapErase_cons_dropped {rf : RemoteFile} {q : String}
    (m : List RemoteFile) (h : rf.path = q) :
    mapErase (rf :: m) q = mapErase m q := by
  simp [mapErase, List.filter_cons, h]

theorem mapLookup_erase_ne (m : List RemoteFile) {p q : String} (h : p ≠ q) :
    mapLookup (mapErase m q) p = mapLookup m p := by
  induction m with
  | nil => rfl
  | cons rf m ih =>
    by_cases hq : rf.path = q
    · have h2 : (rf.path == p) = false := by
        simp only [beq_eq_false_iff_ne, ne_eq]
        intro hh; exact h (hh ▸ hq)
      rw [mapErase_cons_dropped m hq, ih, mapLookup_cons_neg m h2]
    · by_cases hp : rf.path = p
      · have h2 : (rf.path == p) = true := by simp [hp]
        rw [mapErase_cons_kept m hq, mapLookup_cons_pos _ h2,
          mapLookup_cons_pos _ h2]
      · have h2 : (rf.path == p) = false := by simp [hp]
        rw [mapErase_cons_kept m hq, mapLookup_cons_neg _ h2,
          mapLookup_cons_neg _ h2, ih]

theorem planLocals_leftover (force : Bool) (locs : List LocalFile)
    (m : List RemoteFile) :
    (planLocals force locs m).2.2 =
      m.filter (fun rf => !(locs.any (fun lf => lf.path == rf.path))) := by
  induction locs generalizing m with
  | nil => simp [planLocals]
  | cons lf rest ih =>
    have hstep : (planLocals force (lf :: rest) m).2.2 =
        (planLocals force rest (mapErase m lf.path)).2.2 := by
      rw [planLocals_cons]; split <;> rfl
    rw [hstep, ih, mapErase, List.filter_filter]
    apply List.filter_congr
    intro rf _
    by_cases h : lf.path = rf.path
    · simp [h, bne]
    · have h1 : (rf.path == lf.path) = false := by
        simp only [beq_eq_false_iff_ne, ne_eq]
        exact fun hh => h hh.symm
      have h2 : (lf.path == rf.path) = false := by
        simp only [beq_eq_false_iff_ne, ne_eq]
        exact h
      simp [bne, h1, h2]

theorem planLocals_paths_perm (force : Bool) (locs : List LocalFile)
    (m : List RemoteFile) :
    List.Perm
      ((planLocals force locs m).1.map LocalFile.path ++
        (planLocals force locs m).2.1)
      (locs.map LocalFile.path) := by
  induction locs generalizing m with
  | nil => simp [planLocals]
  | cons lf rest ih =>
    rw [planLocals_cons]
    split
    · simpa using (ih (mapErase m lf.path)).cons lf.path
    · exact List.perm_middle.trans ((ih (mapErase m lf.path)).cons lf.path)

theorem planLocals_fst_sublist (force : Bool) (locs : List LocalFile)
    (m : List RemoteFile) :
    List.Sublist (planLocals force locs m).1 locs := by
  induction locs generalizing m with
  | nil => simp [planLocals]
  | cons lf rest ih =>
    rw [planLocals_cons]
    split
    · exact List.Sublist.cons₂ lf (ih (mapErase m lf.path))
    · exact List.Sublist.cons lf (ih (mapErase m lf.path))

theorem planLocals_unchanged_sublist (force : Bool) (locs : List LocalFile)
    (m : List RemoteFile) :
    List.Sublist (planLocals force locs m).2.1 (locs.map LocalFile.path) := by
  induction locs generalizing m with
  | nil => simp [planLocals]
  | cons lf rest ih =>
    rw [planLocals_cons]
    split
    · exact List.Sublist.cons lf.path (ih (mapErase m lf.path))
    · exact List.Sublist.cons₂ lf.path (ih (mapErase m lf.path))

theorem mem_mapInsert_path (acc : List RemoteFile) (rf : RemoteFile)
    (p : String) :
    p ∈ (mapInsert acc rf).map RemoteFile.path ↔
      (p ∈ acc.map RemoteFile.path ∧ p ≠ rf.path) ∨ p = rf.path := by
  simp only [mapInsert, mapErase, List.map_append, List.mem_append,
    List.mem_map, List.mem_filter, bne_iff_ne, ne_eq, List.map_cons,
    List.map_nil, List.mem_singleton]
  constructor
  · rintro (⟨x, ⟨hx, hxne⟩, rfl⟩ | h)
    · exact Or.inl ⟨⟨x, hx, rfl⟩, hxne⟩
    · exact Or.inr h
  · rintro (⟨⟨x, hx, rfl⟩, hne⟩ | h)
    · exact Or.inl ⟨x, ⟨hx, hne⟩, rfl⟩
    · exact Or.inr h

theorem foldl_mapInsert_path_mem (remote : List RemoteFile)
    (acc : List RemoteFile) (p : String) :
    p ∈ (remote.foldl mapInsert acc).map RemoteFile.path ↔
      (p ∈ acc.map RemoteFile.path ∨ p ∈ remote.map RemoteFile.path) := by
  induction remote generalizing acc with
  | nil => simp
  | cons rf rest ih =>
    simp only [List.foldl_cons, ih, List.map_cons, List.mem_cons,
      mem_mapInsert_path]
    by_cases h : p = rf.path <;> simp [h]


theorem mem_buildRemoteMap_path (remote : List RemoteFile) (p : String) :
    p ∈ (buildRemoteMap remote).map RemoteFile.path ↔
      p ∈ remote.map RemoteFile.path := by
  simpa [buildRemoteMap] using foldl_mapInsert_path_mem remote [] p

theorem foldl_mapInsert_eq (remote : List RemoteFile) :
    ∀ acc : List RemoteFile,
      (∀ a ∈ acc, ∀ r ∈ remote, a.path ≠ r.path) →
      (remote.map RemoteFile.path).Nodup →
      remote.foldl mapInsert acc = acc ++ remote := by
  induction remote with
  | nil => intro acc _ _; simp
  | cons rf rest ih =>
    intro acc hdisj hnd
    have hnd' : rf.path ∉ List.map RemoteFile.path rest ∧
        (List.map RemoteFile.path rest).Nodup := by
      rw [List.map_cons, List.nodup_cons] at hnd
      exact hnd
    have hins : mapInsert acc rf = acc ++ [rf] := by
      unfold mapInsert mapErase
      congr 1
      apply List.filter_eq_self.mpr
      intro a ha
      simpa [bne_iff_ne] using hdisj a ha rf (List.mem_cons_self rf rest)
    rw [List.foldl_cons, hins, ih (acc ++ [rf]) ?_ hnd'.2]
    · simp
    · intro a ha r hr
      rcases List.mem_append.mp ha with h | h
      · exact hdisj a h r (List.mem_cons_of_mem rf hr)
      · simp only [List.mem_singleton] at h
        subst h
        intro he
        exact hnd'.1 (he ▸ List.mem_map_of_mem RemoteFile.path hr)

theorem buildRemoteMap_eq_self {remote : List RemoteFile}
    (h : (remote.map RemoteFile.path).Nodup) :
    buildRemoteMap remote = remote := by
  simpa [buildRemoteMap] using foldl_mapInsert_eq remote [] (by simp) h

theorem mapLookup_eq_none_iff (m : List RemoteFile) (p : String) :
    mapLookup m p = none ↔ ∀ rf ∈ m, rf.path ≠ p := by
  simp [mapLookup, List.find?_eq_none]

theorem mapLookup_eq_some_iff_of_nodup {m : List RemoteFile}
    (hm : (m.map RemoteFile.path).Nodup) (p : String) (rf : RemoteFile) :
    mapLookup m p = some rf ↔ rf ∈ m ∧ rf.path = p := by
  induction m with
  | nil => simp [mapLookup]
  | cons q rest ih =>
    have hnd : q.path ∉ List.map RemoteFile.path rest ∧
        (List.map RemoteFile.path rest).Nodup := by
      rw [List.map_cons, List.nodup_cons] at hm
      exact hm
    by_cases hq : q.path = p
    · have hbeq : (q.path == p) = true := by simp [hq]
      have hfind : mapLookup (q :: rest) p = some q :=
        mapLookup_cons_pos rest hbeq
      rw [hfind]
      constructor
      · intro h
        obtain rfl : q = rf := by injection h
        exact ⟨List.mem_cons_self q rest, hq⟩
      · rintro ⟨hmem, hp⟩
        rcases List.mem_cons.mp hmem with rfl | hmem
        · rfl
        · exfalso
          apply hnd.1
          have hin : rf.path ∈ rest.map RemoteFile.path :=
            List.mem_map_of_mem RemoteFile.path hmem
          rwa [hp, ← hq] at hin
    · have hbeq : (q.path == p) = false := by simp [hq]
      have hfind : mapLookup (q :: rest) p = mapLookup rest p :=
        mapLookup_cons_neg rest hbeq
      rw [hfind, ih hnd.2]
      constructor
      · rintro ⟨hmem, hp⟩
        exact ⟨List.mem_cons_of_mem q hmem, hp⟩
      · rintro ⟨hmem, hp⟩
        rcases List.mem_cons.mp hmem with rfl | hmem
        · exact absurd hp hq
        · exact ⟨hmem, hp⟩

theorem map_path_filter (l : List RemoteFile) (q : String → Bool) :
    (l.filter (fun rf => q rf.path)).map RemoteFile.path =
      (l.map RemoteFile.path).filter q := by
  induction l with
  | nil => rfl
  | cons rf rest ih => by_cases h : q rf.path <;> simp [h, ih]

theorem planLocals_cons_upload {force : Bool} {lf : LocalFile}
    {m : List RemoteFile} (rest : List LocalFile)
    (h : (match mapLookup m lf.path with
          | none => true
          | some rf => force || lf.etag != rf.etag) = true) :
    planLocals force (lf :: rest) m =
      (lf :: (planLocals force rest (mapErase m lf.path)).1,
       (planLocals force rest (mapErase m lf.path)).2.1,
       (planLocals force rest (mapErase m lf.path)).2.2) := by
  rw [planLocals_cons, if_pos h]

theorem planLocals_cons_unchanged {force : Bool} {lf : LocalFile}
    {m : List RemoteFile} (rest : List LocalFile)
    (h : (match mapLookup m lf.path with
          | none => true
          | some rf => force || lf.etag != rf.etag) = false) :
    planLocals force (lf :: rest) m =
      ((planLocals force rest (mapErase m lf.path)).1,
       lf.path :: (planLocals force rest (mapErase m lf.path)).2.1,
       (planLocals force rest (mapErase m lf.path)).2.2) := by
  rw [planLocals_cons, if_neg (by simp [h])]

theorem planLocals_mem_spec (force : Bool) (locs : List LocalFile)
    (m : List RemoteFile) (hnd : (locs.map LocalFile.path).Nodup) :
    ∀ lf ∈ locs,
      (lf ∈ (planLocals force locs m).1 ↔
        (mapLookup m lf.path = none ∨ force = true ∨
          ∃ rf, mapLookup m lf.path = some rf ∧ lf.etag ≠ rf.etag)) ∧
      (lf.path ∈ (planLocals force locs m).2.1 ↔
        (force = false ∧
          ∃ rf, mapLookup m lf.path = some rf ∧ lf.etag = rf.etag)) := by
  induction locs generalizing m with
  | nil => intro lf hlf; cases hlf
  | cons lf0 rest ih =>
    have hnd2 : lf0.path ∉ List.map LocalFile.path rest ∧
        (List.map LocalFile.path rest).Nodup := by
      rw [List.map_cons, List.nodup_cons] at hnd
      exact hnd
    intro lf hlf
    rcases List.mem_cons.mp hlf with rfl | hmem
    · have hnotin1 : lf ∉ (planLocals force rest (mapErase m lf.path)).1 := by
        intro hc
        exact hnd2.1 (List.mem_map_of_mem LocalFile.path
          ((planLocals_fst_sublist force rest (mapErase m lf.path)).subset hc))
      have hnotin2 :
          lf.path ∉ (planLocals force rest (mapErase m lf.path)).2.1 := by
        intro hc
        exact hnd2.1
          ((planLocals_unchanged_sublist force rest
            (mapErase m lf.path)).subset hc)
      cases hlook : mapLookup m lf.path with
      | none =>
        rw [planLocals_cons_upload rest (by rw [hlook])]
        refine ⟨⟨fun _ => Or.inl rfl, fun _ => List.mem_cons_self lf _⟩,
          ?_, ?_⟩
        · intro hc; exact absurd hc hnotin2
        · rintro ⟨_, rf, hrf, _⟩
          simp at hrf
      | some rf0 =>
        by_cases hcond : (force || (lf.etag != rf0.etag)) = true
        · rw [planLocals_cons_upload rest (by rw [hlook]; exact hcond)]
          have hcases : force = true ∨ (lf.etag != rf0.etag) = true := by
            simpa using hcond
          refine ⟨⟨fun _ => ?_, fun _ => List.mem_cons_self lf _⟩, ?_, ?_⟩
          · rcases hcases with hf | hne
            · exact Or.inr (Or.inl hf)
            · exact Or.inr (Or.inr ⟨rf0, rfl, by simpa using hne⟩)
          · intro hc; exact absurd hc hnotin2
          · rintro ⟨hforce, rf, hrf, heq⟩
            obtain rfl : rf0 = rf := by injection hrf
            rcases hcases with hf | hne
            · rw [hforce] at hf; cases hf
            · exact absurd heq (by simpa using hne)
        · have hflat : force = false ∧ (lf.etag != rf0.etag) = false := by
            constructor
            · cases hf : force
              · rfl
              · exact absurd (by simp [hf]) hcond
            · cases hb : (lf.etag != rf0.etag)
              · rfl
              · exact absurd (by simp [hb]) hcond
          have hetag : lf.etag = rf0.etag := by
            simpa using hflat.2
          rw [planLocals_cons_unchanged rest
            (by rw [hlook]; simp [hflat.1, hflat.2])]
          refine ⟨⟨?_, ?_⟩, ⟨fun _ => ⟨hflat.1, rf0, rfl, hetag⟩,
            fun _ => List.mem_cons_self lf.path _⟩⟩
          · intro hc; exact absurd hc hnotin1
          · rintro (hn | hf | ⟨rf, hrf, hne⟩)
            · simp at hn
            · rw [hf] at hflat; cases hflat.1
            · obtain rfl : rf0 = rf := by injection hrf
              exact absurd hetag hne
    · have hpathne : lf.path ≠ lf0.path := by
        intro he
        exact hnd2.1 (he ▸ List.mem_map_of_mem LocalFile.path hmem)
      have hvalne : lf ≠ lf0 := fun he => hpathne (he ▸ rfl)
      have hlook2 :
          mapLookup (mapErase m lf0.path) lf.path = mapLookup m lf.path :=
        mapLookup_erase_ne m hpathne
      have hih := ih (mapErase m lf0.path) hnd2.2 lf hmem
      rw [hlook2] at hih
      rw [planLocals_cons]
      split
      · constructor
        · rw [List.mem_cons]
          simp only [hvalne, false_or]
          exact hih.1
        · exact hih.2
      · constructor
        · exact hih.1
        · rw [List.mem_cons]
          simp only [hpathne, false_or]
          exact hih.2

/-- C1 counterexample: with the same local entry listed twice (path
present remotely with an equal fingerprint, force false), the second
occurrence is placed in toUpload although the claimed condition for
toUpload membership does not hold. -/
theorem c1_counterexample :
    ((⟨"/a", "/d/a", "x", 1, "t"⟩ : LocalFile) ∈
      (computeSyncPlan
        [⟨"/a", "/d/a", "x", 1, "t"⟩, ⟨"/a", "/d/a", "x", 1, "t"⟩]
        [⟨"/a", "x", 1, "t"⟩] false false id).toUpload) ∧
    ¬((∀ rf ∈ ([⟨"/a", "x", 1, "t"⟩] : List RemoteFile),
        rf.path ≠ (⟨"/a", "/d/a", "x", 1, "t"⟩ : LocalFile).path) ∨
      false = true ∨
      ∃ rf ∈ ([⟨"/a", "x", 1, "t"⟩] : List RemoteFile),
        rf.path = (⟨"/a", "/d/a", "x", 1, "t"⟩ : LocalFile).path ∧
        (⟨"/a", "/d/a", "x", 1, "t"⟩ : LocalFile).etag ≠ rf.etag) := by
  decide

/-- C1 amended: for manifests whose paths are pairwise distinct within
each side, a local entry is placed in toUpload exactly when its path is
absent from the remote manifest, or force is true, or its fingerprint
differs from the remote entry at the same path; and a local entry whose
path is present remotely with an equal fingerprint is placed in unchanged
when force is false. -/
theorem c1_amended_upload_iff (loc : List LocalFile)
    (remote : List RemoteFile) (force deleteRemote : Bool)
    (rangeOrder : List RemoteFile → List RemoteFile)
    (hl : (loc.map LocalFile.path).Nodup)
    (hr : (remote.map RemoteFile.path).Nodup) :
    ∀ lf ∈ loc,
      (lf ∈ (computeSyncPlan loc remote force deleteRemote
          rangeOrder).toUpload ↔
        (∀ rf ∈ remote, rf.path ≠ lf.path) ∨ force = true ∨
          ∃ rf ∈ remote, rf.path = lf.path ∧ lf.etag ≠ rf.etag) ∧
      ((∃ rf ∈ remote, rf.path = lf.path ∧ lf.etag = rf.etag) →
        force = false →
        lf.path ∈ (computeSyncPlan loc remote force deleteRemote
          rangeOrder).unchanged) := by
  intro lf hlf
  have hb := buildRemoteMap_eq_self hr
  have hcore := planLocals_mem_spec force loc (buildRemoteMap remote) hl lf hlf
  rw [hb] at hcore
  have htou : (computeSyncPlan loc remote force deleteRemote
      rangeOrder).toUpload = (planLocals force loc (buildRemoteMap remote)).1 :=
    rfl
  have hunch : (computeSyncPlan loc remote force deleteRemote
      rangeOrder).unchanged =
      (planLocals force loc (buildRemoteMap remote)).2.1 := rfl
  constructor
  · rw [htou, hb, hcore.1]
    constructor
    · rintro (hn | hfo | ⟨rf, hrf, hne⟩)
      · exact Or.inl ((mapLookup_eq_none_iff remote lf.path).mp hn)
      · exact Or.inr (Or.inl hfo)
      · obtain ⟨hmem, hp⟩ :=
          (mapLookup_eq_some_iff_of_nodup hr lf.path rf).mp hrf
        exact Or.inr (Or.inr ⟨rf, hmem, hp, hne⟩)
    · rintro (hn | hfo | ⟨rf, hmem, hp, hne⟩)
      · exact Or.inl ((mapLookup_eq_none_iff remote lf.path).mpr hn)
      · exact Or.inr (Or.inl hfo)
      · exact Or.inr (Or.inr ⟨rf,
          (mapLookup_eq_some_iff_of_nodup hr lf.path rf).mpr ⟨hmem, hp⟩, hne⟩)
  · rintro ⟨rf, hmem, hp, heq⟩ hforce
    rw [hunch, hb, hcore.2]
    exact ⟨hforce, rf,
      (mapLookup_eq_some_iff_of_nodup hr lf.path rf).mpr ⟨hmem, hp⟩, heq⟩

theorem c1_amended_upload_iff_witness :
    ((⟨"/index.html", "/d/index.html", "abc", 1, "text/html"⟩ : LocalFile) ∈
      (computeSyncPlan [⟨"/index.html", "/d/index.html", "abc", 1,
          "text/html"⟩]
        [⟨"/index.html", "old", 1, "t"⟩] false true id).toUpload ↔
      (∀ rf ∈ ([⟨"/index.html", "old", 1, "t"⟩] : List RemoteFile),
        rf.path ≠ (⟨"/index.html", "/d/index.html", "abc", 1,
          "text/html"⟩ : LocalFile).path) ∨ false = true ∨
        ∃ rf ∈ ([⟨"/index.html", "old", 1, "t"⟩] : List RemoteFile),
          rf.path = (⟨"/index.html", "/d/index.html", "abc", 1,
            "text/html"⟩ : LocalFile).path ∧
          (⟨"/index.html", "/d/index.html", "abc", 1,
            "text/html"⟩ : LocalFile).etag ≠ rf.etag) ∧
    ((∃ rf ∈ ([⟨"/index.html", "old", 1, "t"⟩] : List RemoteFile),
        rf.path = (⟨"/index.html", "/d/index.html", "abc", 1,
          "text/html"⟩ : LocalFile).path ∧
        (⟨"/index.html", "/d/index.html", "abc", 1,
          "text/html"⟩ : LocalFile).etag = rf.etag) → false = false →
      (⟨"/index.html", "/d/index.html", "abc", 1,
        "text/html"⟩ : LocalFile).path ∈
        (computeSyncPlan [⟨"/index.html", "/d/index.html", "abc", 1,
            "text/html"⟩]
          [⟨"/index.html", "old", 1, "t"⟩] false true id).unchanged) :=
  c1_amended_upload_iff
    [⟨"/index.html", "/d/index.html", "abc", 1, "text/html"⟩]
    [⟨"/index.html", "old", 1, "t"⟩] false true id (by decide) (by decide)
    ⟨"/index.html", "/d/index.html", "abc", 1, "text/html"⟩ (by decide)

/-- C5 counterexample: the identity and List.reverse are both possible
Go map range orders, yet on equal inputs they produce different plans —
and under the reversed order toDelete does not list the remote-only
entries in remote listing order. computeSyncPlan's output therefore
depends on the map iteration order, which Go does not fix. -/
theorem c5_counterexample :
    GoMapRange id ∧ GoMapRange List.reverse ∧
    computeSyncPlan [] [⟨"/a", "x", 1, "t"⟩, ⟨"/b", "y", 1, "t"⟩]
        false true id ≠
      computeSyncPlan [] [⟨"/a", "x", 1, "t"⟩, ⟨"/b", "y", 1, "t"⟩]
        false true List.reverse ∧
    (computeSyncPlan [] [⟨"/a", "x", 1, "t"⟩, ⟨"/b", "y", 1, "t"⟩]
        false true List.reverse).toDelete ≠
      [⟨"/a", "x", 1, "t"⟩, ⟨"/b", "y", 1, "t"⟩] := by
  refine ⟨fun m => List.Perm.refl m, fun m => List.reverse_perm m, ?_, ?_⟩ <;>
    decide

/-- C5 amended: computeSyncPlan is deterministic up to the order of
toDelete — toUpload and unchanged are equal across any two admissible map
range orders and follow the local input order (they are sublists of the
local input), while toDelete is determined only up to permutation: it
holds, in the iteration order the runtime chose, exactly the remote-only
entries left in the remote map. -/
theorem c5_amended_plan_order (loc : List LocalFile)
    (remote : List RemoteFile) (force deleteRemote : Bool)
    (f g : List RemoteFile → List RemoteFile)
    (hf : GoMapRange f) (hg : GoMapRange g) :
    (computeSyncPlan loc remote force deleteRemote f).toUpload =
      (computeSyncPlan loc remote force deleteRemote g).toUpload ∧
    (computeSyncPlan loc remote force deleteRemote f).unchanged =
      (computeSyncPlan loc remote force deleteRemote g).unchanged ∧
    List.Perm (computeSyncPlan loc remote force deleteRemote f).toDelete
      (computeSyncPlan loc remote force deleteRemote g).toDelete ∧
    List.Sublist (computeSyncPlan loc remote force deleteRemote f).toUpload
      loc ∧
    List.Sublist (computeSyncPlan loc remote force deleteRemote f).unchanged
      (loc.map LocalFile.path) ∧
    (deleteRemote = true →
      List.Perm (computeSyncPlan loc remote force deleteRemote f).toDelete
        ((buildRemoteMap remote).filter
          (fun rf => !(loc.any (fun lf => lf.path == rf.path))))) := by
  have hleft := planLocals_leftover force loc (buildRemoteMap remote)
  refine ⟨rfl, rfl, ?_, ?_, ?_, ?_⟩
  · cases deleteRemote with
    | false => exact List.Perm.refl []
    | true =>
      have h1 : (computeSyncPlan loc remote force true f).toDelete =
          f (planLocals force loc (buildRemoteMap remote)).2.2 := rfl
      have h2 : (computeSyncPlan loc remote force true g).toDelete =
          g (planLocals force loc (buildRemoteMap remote)).2.2 := rfl
      rw [h1, h2]
      exact (hf _).trans (hg _).symm
  · exact planLocals_fst_sublist force loc (buildRemoteMap remote)
  · exact planLocals_unchanged_sublist force loc (buildRemoteMap remote)
  · intro hd
    subst hd
    have h1 : (computeSyncPlan loc remote force true f).toDelete =
        f (planLocals force loc (buildRemoteMap remote)).2.2 := rfl
    rw [h1]
    exact (hf _).trans (by rw [hleft])

theorem c5_amended_plan_order_witness :
    (computeSyncPlan [] [⟨"/a", "x", 1, "t"⟩] false true id).toUpload =
      (computeSyncPlan [] [⟨"/a", "x", 1, "t"⟩] false true
        List.reverse).toUpload ∧
    (computeSyncPlan [] [⟨"/a", "x", 1, "t"⟩] false true id).unchanged =
      (computeSyncPlan [] [⟨"/a", "x", 1, "t"⟩] false true
        List.reverse).unchanged ∧
    List.Perm (computeSyncPlan [] [⟨"/a", "x", 1, "t"⟩] false true
        id).toDelete
      (computeSyncPlan [] [⟨"/a", "x", 1, "t"⟩] false true
        List.reverse).toDelete ∧
    List.Sublist (computeSyncPlan [] [⟨"/a", "x", 1, "t"⟩] false true
        id).toUpload [] ∧
    List.Sublist (computeSyncPlan [] [⟨"/a", "x", 1, "t"⟩] false true
        id).unchanged (List.map LocalFile.path []) ∧
    (true = true →
      List.Perm (computeSyncPlan [] [⟨"/a", "x", 1, "t"⟩] false true
          id).toDelete
        ((buildRemoteMap [⟨"/a", "x", 1, "t"⟩]).filter
          (fun rf =>
            !(([] : List LocalFile).any (fun lf => lf.path == rf.path))))) :=
  c5_amended_plan_order [] [⟨"/a", "x", 1, "t"⟩] false true id List.reverse
    (fun m => List.Perm.refl m) (fun m => List.reverse_perm m)

/-- C9: the Delete flag of SyncCmd defaults to true (kong tag
default:"true" with negatable), so an invocation that does not explicitly
negate it runs the planner with deleteRemote = true, and then every
remote-only path is planned for deletion. -/
theorem c9_delete_default (dryRun force : Bool) (loc : List LocalFile)
    (remote : List RemoteFile)
    (rangeOrder : List RemoteFile → List RemoteFile)
    (hf : GoMapRange rangeOrder) :
    (SyncCmd.fromFlags dryRun force none).delete = true ∧
    (∀ b : Option Bool, b ≠ some false →
      (SyncCmd.fromFlags dryRun force b).delete = true) ∧
    (∀ p ∈ remote.map RemoteFile.path, p ∉ loc.map LocalFile.path →
      p ∈ ((computeSyncPlan loc remote force
        (SyncCmd.fromFlags dryRun force none).delete
          rangeOrder).toDelete.map RemoteFile.path)) := by
  refine ⟨rfl, ?_, ?_⟩
  · intro b hb
    match b with
    | none => rfl
    | some true => rfl
    | some false => exact absurd rfl hb
  · intro p hp hnp
    have htd : (computeSyncPlan loc remote force
        (SyncCmd.fromFlags dryRun force none).delete rangeOrder).toDelete =
        rangeOrder (planLocals force loc (buildRemoteMap remote)).2.2 := rfl
    rw [htd]
    have hpm := ((hf (planLocals force loc
      (buildRemoteMap remote)).2.2).map RemoteFile.path).mem_iff (a := p)
    rw [hpm, planLocals_leftover]
    have hbm := (mem_buildRemoteMap_path remote p).mpr hp
    obtain ⟨rf, hrfmem, hrfp⟩ := List.mem_map.mp hbm
    have hany : (loc.any (fun lf => lf.path == rf.path)) = false := by
      rw [List.any_eq_false]
      intro lf hlf
      simp only [beq_iff_eq]
      intro he
      exact hnp (hrfp ▸ he ▸ List.mem_map_of_mem LocalFile.path hlf)
    refine List.mem_map.mpr ⟨rf, List.mem_filter.mpr ⟨hrfmem, ?_⟩, hrfp⟩
    simp [hany]

theorem c9_delete_default_witness :
    (SyncCmd.fromFlags false false none).delete = true ∧
    (∀ b : Option Bool, b ≠ some false →
      (SyncCmd.fromFlags false false b).delete = true) ∧
    (∀ p ∈ List.map RemoteFile.path [⟨"/gone.txt", "x", 1, "t"⟩],
      p ∉ List.map LocalFile.path ([] : List LocalFile) →
      p ∈ ((computeSyncPlan [] [⟨"/gone.txt", "x", 1, "t"⟩] false
        (SyncCmd.fromFlags false false none).delete
          id).toDelete.map RemoteFile.path)) :=
  c9_delete_default false false [] [⟨"/gone.txt", "x", 1, "t"⟩] id
    (fun m => List.Perm.refl m)

/-- C2: for manifests with pairwise-distinct paths, the plan's three
collections are pairwise disjoint in path, their paths together are a
permutation of the local paths united (when deleteRemote is true) with
the remote-only paths, and toDelete is empty whenever deleteRemote is
false. -/
theorem c2_plan_partition (loc : List LocalFile) (remote : List RemoteFile)
    (force deleteRemote : Bool)
    (rangeOrder : List RemoteFile → List RemoteFile)
    (hf : GoMapRange rangeOrder)
    (hl : (loc.map LocalFile.path).Nodup)
    (hr : (remote.map RemoteFile.path).Nodup) :
    (∀ p ∈ (computeSyncPlan loc remote force deleteRemote
        rangeOrder).toUpload.map LocalFile.path,
      p ∉ (computeSyncPlan loc remote force deleteRemote
        rangeOrder).unchanged) ∧
    (∀ p ∈ (computeSyncPlan loc remote force deleteRemote
        rangeOrder).toUpload.map LocalFile.path,
      p ∉ (computeSyncPlan loc remote force deleteRemote
        rangeOrder).toDelete.map RemoteFile.path) ∧
    (∀ p ∈ (computeSyncPlan loc remote force deleteRemote
        rangeOrder).unchanged,
      p ∉ (computeSyncPlan loc remote force deleteRemote
        rangeOrder).toDelete.map RemoteFile.path) ∧
    List.Perm
      ((computeSyncPlan loc remote force deleteRemote
          rangeOrder).toUpload.map LocalFile.path ++
        (computeSyncPlan loc remote force deleteRemote
          rangeOrder).unchanged ++
        (computeSyncPlan loc remote force deleteRemote
          rangeOrder).toDelete.map RemoteFile.path)
      (loc.map LocalFile.path ++
        (if deleteRemote then
          (remote.map RemoteFile.path).filter
            (fun p => !(loc.any (fun lf => lf.path == p)))
        else [])) ∧
    (deleteRemote = false →
      (computeSyncPlan loc remote force deleteRemote
        rangeOrder).toDelete = []) := by
  have hb := buildRemoteMap_eq_self hr
  have htou : (computeSyncPlan loc remote force deleteRemote
      rangeOrder).toUpload =
      (planLocals force loc (buildRemoteMap remote)).1 := rfl
  have hunch : (computeSyncPlan loc remote force deleteRemote
      rangeOrder).unchanged =
      (planLocals force loc (buildRemoteMap remote)).2.1 := rfl
  have htd : (computeSyncPlan loc remote force deleteRemote
      rangeOrder).toDelete =
      (if deleteRemote then
        rangeOrder (planLocals force loc (buildRemoteMap remote)).2.2
      else []) := rfl
  have hleft2 : (planLocals force loc (buildRemoteMap remote)).2.2 =
      remote.filter (fun rf => !(loc.any (fun lf => lf.path == rf.path))) := by
    rw [planLocals_leftover, hb]
  have hperm1 := planLocals_paths_perm force loc (buildRemoteMap remote)
  have hnd12 : ((planLocals force loc (buildRemoteMap remote)).1.map
      LocalFile.path ++
      (planLocals force loc (buildRemoteMap remote)).2.1).Nodup :=
    hperm1.nodup_iff.mpr hl
  have hdisj12 := (List.nodup_append.mp hnd12).2.2
  have hup_sub : ∀ p ∈ (planLocals force loc
      (buildRemoteMap remote)).1.map LocalFile.path,
      p ∈ loc.map LocalFile.path :=
    fun p hp =>
      ((planLocals_fst_sublist force loc (buildRemoteMap remote)).map
        LocalFile.path).subset hp
  have hunch_sub : ∀ p ∈ (planLocals force loc
      (buildRemoteMap remote)).2.1, p ∈ loc.map LocalFile.path :=
    fun p hp =>
      (planLocals_unchanged_sublist force loc (buildRemoteMap remote)).subset
        hp
  have hmpf := map_path_filter remote
    (fun p => !(loc.any (fun lf => lf.path == p)))
  have hDperm : List.Perm
      ((computeSyncPlan loc remote force deleteRemote
        rangeOrder).toDelete.map RemoteFile.path)
      (if deleteRemote then
        (remote.map RemoteFile.path).filter
          (fun p => !(loc.any (fun lf => lf.path == p)))
      else []) := by
    rw [htd]
    cases deleteRemote with
    | false => simp
    | true =>
      simp only [if_true]
      have hmap := (hf (planLocals force loc
        (buildRemoteMap remote)).2.2).map RemoteFile.path
      refine hmap.trans ?_
      rw [hleft2, hmpf]
  have hfilter_not_loc : ∀ p,
      p ∈ (if deleteRemote then
        (remote.map RemoteFile.path).filter
          (fun p => !(loc.any (fun lf => lf.path == p)))
      else []) → p ∉ loc.map LocalFile.path := by
    intro p hp hploc
    cases deleteRemote with
    | false => simp at hp
    | true =>
      simp only [if_true] at hp
      have hpred := (List.mem_filter.mp hp).2
      have hany : (loc.any (fun lf => lf.path == p)) = false := by
        cases hv : loc.any (fun lf => lf.path == p)
        · rfl
        · rw [hv] at hpred; cases hpred
      obtain ⟨lf, hlf, hlfp⟩ := List.mem_map.mp hploc
      have hne := List.any_eq_false.mp hany lf hlf
      exact hne (by simp [hlfp])
  refine ⟨?_, ?_, ?_, ?_, ?_⟩
  · intro p hp
    rw [htou] at hp
    rw [hunch]
    exact fun hq => hdisj12 hp hq
  · intro p hp hq
    rw [htou] at hp
    exact hfilter_not_loc p (hDperm.subset hq) (hup_sub p hp)
  · intro p hp hq
    rw [hunch] at hp
    exact hfilter_not_loc p (hDperm.subset hq) (hunch_sub p hp)
  · rw [htou, hunch]
    exact hperm1.append hDperm
  · intro h
    rw [htd, h]
    simp

theorem c2_plan_partition_witness :
    (∀ p ∈ (computeSyncPlan [⟨"/a", "/d/a", "x", 1, "t"⟩]
        [⟨"/a", "x", 1, "t"⟩, ⟨"/b", "y", 1, "t"⟩] false true
        id).toUpload.map LocalFile.path,
      p ∉ (computeSyncPlan [⟨"/a", "/d/a", "x", 1, "t"⟩]
        [⟨"/a", "x", 1, "t"⟩, ⟨"/b", "y", 1, "t"⟩] false true
        id).unchanged) ∧
    (∀ p ∈ (computeSyncPlan [⟨"/a", "/d/a", "x", 1, "t"⟩]
        [⟨"/a", "x", 1, "t"⟩, ⟨"/b", "y", 1, "t"⟩] false true
        id).toUpload.map LocalFile.path,
      p ∉ (computeSyncPlan [⟨"/a", "/d/a", "x", 1, "t"⟩]
        [⟨"/a", "x", 1, "t"⟩, ⟨"/b", "y", 1, "t"⟩] false true
        id).toDelete.map RemoteFile.path) ∧
    (∀ p ∈ (computeSyncPlan [⟨"/a", "/d/a", "x", 1, "t"⟩]
        [⟨"/a", "x", 1, "t"⟩, ⟨"/b", "y", 1, "t"⟩] false true
        id).unchanged,
      p ∉ (computeSyncPlan [⟨"/a", "/d/a", "x", 1, "t"⟩]
        [⟨"/a", "x", 1, "t"⟩, ⟨"/b", "y", 1, "t"⟩] false true
        id).toDelete.map RemoteFile.path) ∧
    List.Perm
      ((computeSyncPlan [⟨"/a", "/d/a", "x", 1, "t"⟩]
          [⟨"/a", "x", 1, "t"⟩, ⟨"/b", "y", 1, "t"⟩] false true
          id).toUpload.map LocalFile.path ++
        (computeSyncPlan [⟨"/a", "/d/a", "x", 1, "t"⟩]
          [⟨"/a", "x", 1, "t"⟩, ⟨"/b", "y", 1, "t"⟩] false true
          id).unchanged ++
        (computeSyncPlan [⟨"/a", "/d/a", "x", 1, "t"⟩]
          [⟨"/a", "x", 1, "t"⟩, ⟨"/b", "y", 1, "t"⟩] false true
          id).toDelete.map RemoteFile.path)
      (([⟨"/a", "/d/a", "x", 1, "t"⟩] : List LocalFile).map LocalFile.path ++
        (if true then
          (([⟨"/a", "x", 1, "t"⟩, ⟨"/b", "y", 1, "t"⟩] :
              List RemoteFile).map RemoteFile.path).filter
            (fun p => !(([⟨"/a", "/d/a", "x", 1, "t"⟩] :
              List LocalFile).any (fun lf => lf.path == p)))
        else [])) ∧
    (true = false →
      (computeSyncPlan [⟨"/a", "/d/a", "x", 1, "t"⟩]
        [⟨"/a", "x", 1, "t"⟩, ⟨"/b", "y", 1, "t"⟩] false true
        id).toDelete = []) :=
  c2_plan_partition [⟨"/a", "/d/a", "x", 1, "t"⟩]
    [⟨"/a", "x", 1, "t"⟩, ⟨"/b", "y", 1, "t"⟩] false true id
    (fun m => List.Perm.refl m) (by decide) (by decide)

theorem filter_flatMap {α β : Type} (l : List α) (f : α → List β)
    (p : β → Bool) :
    (l.flatMap f).filter p = l.flatMap (fun a => (f a).filter p) := by
  induction l with
  | nil => rfl
  | cons a rest ih => simp [List.flatMap_cons, List.filter_append, ih]

theorem map_flatMap_fun {α β γ : Type} (l : List α) (f : α → List β)
    (g : β → γ) :
    (l.flatMap f).map g = l.flatMap (fun a => (f a).map g) := by
  induction l with
  | nil => rfl
  | cons a rest ih => simp [List.flatMap_cons, ih]

theorem flatMap_congr_mem {α β : Type} {l : List α} {f g : α → List β}
    (h : ∀ a ∈ l, f a = g a) : l.flatMap f = l.flatMap g := by
  induction l with
  | nil => rfl
  | cons a rest ih =>
    simp only [List.flatMap_cons, h a (List.mem_cons_self a rest),
      ih (fun x hx => h x (List.mem_cons_of_mem a hx))]

theorem filter_map_comm {α β γ : Type} (l : List α) (g : α → β)
    (p : β → Bool) (f : β → γ) :
    ((l.map g).filter p).map f =
      (l.filter (fun a => p (g a))).map (fun a => f (g a)) := by
  induction l with
  | nil => rfl
  | cons a rest ih => by_cases h : p (g a) <;> simp [h, ih]

theorem scanNode_eq (md5hex mimeTable : String → String) (rootDir : String)
    (n : FSNode) (comps : List String) :
    scanNode md5hex mimeTable rootDir n comps =
      ((nodeFiles n).filter
        (fun e => !((comps ++ e.1).any
          (fun part => part.startsWith ".")))).map
        (fun e => scanEntry md5hex mimeTable rootDir (comps ++ e.1, e.2)) := by
  induction n, comps using scanNode.induct md5hex mimeTable rootDir with
  | case1 name content comps parts hhid =>
    have hh : ((comps ++ [name]).any
        (fun part => part.startsWith ".")) = true := hhid
    simp only [scanNode, nodeFiles]
    rw [if_pos hh]
    simp [hh, -List.any_append]
  | case2 name content comps parts hhid =>
    have hany : ((comps ++ [name]).any
        (fun part => part.startsWith ".")) = false := by
      cases hv : (comps ++ [name]).any (fun part => part.startsWith ".")
      · rfl
      · exact absurd hv hhid
    simp only [scanNode, nodeFiles]
    rw [if_neg (hany ▸ hhid)]
    simp [hany, -List.any_append]
  | case3 name children comps ih =>
    simp only [scanNode, nodeFiles]
    rw [filter_flatMap, map_flatMap_fun]
    apply flatMap_congr_mem
    intro c hc
    rw [ih c]
    rw [filter_map_comm]
    simp [List.append_assoc]

/-- C8: the scanner's manifest is exactly the tree's regular files whose
root-relative path components are all non-hidden (no component starts
with '.'), in traversal order, each rendered by scanEntry — path equal to
'/' followed by the slash-joined relative path — and with content type
application/octet-stream whenever the MIME table does not recognize the
file's extension (a missing extension included, since the table maps ""
to ""). Files with a hidden component, including those nested under a
hidden directory, are excluded. -/
theorem c8_scanner (md5hex mimeTable : String → String) (rootDir : String)
    (roots : List FSNode) :
    scanLocalFiles md5hex mimeTable rootDir roots =
      ((treeFiles roots).filter
        (fun e => !(e.1.any (fun part => part.startsWith ".")))).map
        (scanEntry md5hex mimeTable rootDir) ∧
    (∀ lf ∈ scanLocalFiles md5hex mimeTable rootDir roots,
      mimeTable (fileExt lf.absPath) = "" →
      lf.contentType = "application/octet-stream") := by
  have hmain : scanLocalFiles md5hex mimeTable rootDir roots =
      ((treeFiles roots).filter
        (fun e => !(e.1.any (fun part => part.startsWith ".")))).map
        (scanEntry md5hex mimeTable rootDir) := by
    unfold scanLocalFiles treeFiles
    rw [filter_flatMap, map_flatMap_fun]
    apply flatMap_congr_mem
    intro c _
    rw [scanNode_eq md5hex mimeTable rootDir c []]
    simp
  refine ⟨hmain, ?_⟩
  intro lf hlf hmime
  rw [hmain] at hlf
  obtain ⟨e, _, rfl⟩ := List.mem_map.mp hlf
  revert hmime
  show mimeTable (fileExt (scanEntry md5hex mimeTable rootDir e).absPath)
      = "" → _
  unfold scanEntry detectContentType
  intro hmime
  simp only at hmime ⊢
  rw [hmime]
  rfl

end Cli3
